import Mathlib

/-!
Verification development for the core inference / resolvent engine of a
trait-logic solver (SLG-style), as implemented in
`src/solve/infer/ucanonicalize.rs`, `src/solve/infer/instantiate.rs`,
`src/solve/infer/normalize_deep.rs` and
`src/solve/slg/implementation/resolvent.rs`.

The term IR (`ir/mod.rs`) and the generic folder framework (`fold.rs`) are not
part of the provided sources; they are modelled from the specification
(its sections 3 and 4.1).  Universe indices are modelled by their `counter`
field, i.e. by `Nat`.
-/

namespace Chalk

/-- Modelled from the spec: a type name is an item id (nominal type), a skolem
constant `ForAll(U)` tagged with its universe, or an associated-type id. -/
inductive TypeName where
  | itemId (id : Nat)
  | forAll (ui : Nat)
  | assocType (id : Nat)
deriving DecidableEq

/-- Modelled from the spec: a lifetime is a de Bruijn variable or a skolem
`ForAll(U)`. -/
inductive Lifetime where
  | var (depth : Nat)
  | foralll (ui : Nat)
deriving DecidableEq

/-- Modelled from the spec: a const is a de Bruijn variable (other forms
reserved). -/
inductive Const where
  | var (depth : Nat)
deriving DecidableEq

/-- Modelled from the spec: the polymorphic kind carrier `ParameterKind<T>`
(one payload per kind Type / Lifetime / Const). -/
inductive PKind (α : Type) where
  | ty (a : α)
  | life (a : α)
  | cst (a : α)
deriving DecidableEq

/-- The `map` operation of `ParameterKind`, applying a function to the
payload while keeping the kind. -/
def PKind.map {α β : Type} (f : α → β) : PKind α → PKind β
  | .ty a => .ty (f a)
  | .life a => .life (f a)
  | .cst a => .cst (f a)

mutual
/-- Modelled from the spec: the type language `Ty`, with de Bruijn existential
variables, applications, (unselected) projections and `forall` types.  A
skolem type is an application whose name is `TypeName.forAll` and which
carries no parameters. -/
inductive Ty where
  | var (depth : Nat)
  | apply (name : TypeName) (parameters : Params)
  | proj (assocTyId : Nat) (parameters : Params)
  | unselProj (typeName : Nat) (parameters : Params)
  | forAllTy (numBinders : Nat) (inner : Ty)

/-- Modelled from the spec: a list of parameters (kept as its own inductive so
that the mutual structural recursions below stay elementary). -/
inductive Params where
  | nil
  | cons (p : Param) (ps : Params)

/-- Modelled from the spec: a parameter is a kind-tagged type, lifetime or
const. -/
inductive Param where
  | ty (t : Ty)
  | life (l : Lifetime)
  | cst (c : Const)
end

/-! ## UniverseMap (`src/solve/infer/ucanonicalize.rs`)

A `UniverseMap` is the sorted vector `universes : Vec<UniverseIndex>` of the
source, modelled as a `List Nat` of universe counters. -/

/-- Model of Rust `slice::binary_search` through its documented contract on a
sorted, duplicate-free vector: `Ok(i)` when the target sits at index `i`
(which for such a vector is the number of strictly smaller elements), and
otherwise `Err(i)` where `i` is the insertion index that keeps the vector
sorted (again the number of strictly smaller elements). -/
def binarySearch (m : List Nat) (u : Nat) : Sum Nat Nat :=
  if u ∈ m then Sum.inl (m.countP (fun v => decide (v < u)))
  else Sum.inr (m.countP (fun v => decide (v < u)))

/-- Insertion of an element at a given position of a list (`Vec::insert`). -/
def insertAt : Nat → Nat → List Nat → List Nat
  | 0, u, l => u :: l
  | _ + 1, u, [] => [u]
  | n + 1, u, x :: xs => x :: insertAt n u xs

namespace UniverseMap

/-- `UniverseMap::new`: the initial vector holding only the root universe. -/
def new : List Nat := [0]

/-- `UniverseMap::num_canonical_universes`. -/
def numCanonicalUniverses (m : List Nat) : Nat := m.length

/-- `UniverseMap::add`: binary-search the universe and insert it at the
reported insertion point when it is absent. -/
def add (m : List Nat) (u : Nat) : List Nat :=
  match binarySearch m u with
  | Sum.inl _ => m
  | Sum.inr i => insertAt i u m

/-- `UniverseMap::map_universe_to_canonical`: on a hit return the index; on a
miss the source asserts `index > 0` (modelled by `none` on failure) and
returns the predecessor of the insertion index. -/
def mapToCanonical (m : List Nat) (u : Nat) : Option Nat :=
  match binarySearch m u with
  | Sum.inl index => some index
  | Sum.inr index => if index > 0 then some (index - 1) else none

/-- `UniverseMap::map_universe_from_canonical`: in range, index into the
vector; out of range, `last + (counter - len) + 1` (the `last().unwrap()` of
the source is total on the nonempty vectors maintained by the module and is
modelled by `getD (length - 1) 0`). -/
def mapFromCanonical (m : List Nat) (c : Nat) : Nat :=
  if h : c < m.length then m.get ⟨c, h⟩
  else m.getD (m.length - 1) 0 + (c - m.length) + 1

/-- The invariant of a `UniverseMap` stated by the spec: the vector is
strictly increasing and its first element is the root universe `U0`. -/
def Inv (m : List Nat) : Prop := List.Chain' (· < ·) m ∧ m.head? = some 0

end UniverseMap

/-! ### Ordered-list facts about the universe vector -/

theorem sorted_getElem?_countP (u : Nat) :
    ∀ m : List Nat, List.Pairwise (· < ·) m → u ∈ m →
      m[m.countP (fun v => decide (v < u))]? = some u := by
  intro m
  induction m with
  | nil => intro _ h; cases h
  | cons x xs ih =>
    intro hp hu
    rcases List.pairwise_cons.mp hp with ⟨hx, hxs⟩
    rcases List.mem_cons.mp hu with rfl | hu
    · have h0 : xs.countP (fun v => decide (v < u)) = 0 := by
        apply List.countP_eq_zero.mpr
        intro a ha
        simpa using Nat.not_lt.mpr (Nat.le_of_lt (hx a ha))
      simp [List.countP_cons, h0]
    · have hxu : x < u := hx u hu
      have hcnt : (x :: xs).countP (fun v => decide (v < u))
          = xs.countP (fun v => decide (v < u)) + 1 := by
        simp [List.countP_cons, hxu]
      rw [hcnt]
      simpa using ih hxs hu

theorem countP_lt_length_of_mem {u : Nat} {m : List Nat}
    (hp : List.Pairwise (· < ·) m) (hu : u ∈ m) :
    m.countP (fun v => decide (v < u)) < m.length := by
  have h := sorted_getElem?_countP u m hp hu
  exact (List.getElem?_eq_some.mp h).1

/-- Sorted insertion, the reference form of `UniverseMap.add` on sorted
duplicate-free vectors. -/
def ins (u : Nat) : List Nat → List Nat
  | [] => [u]
  | x :: xs => if u < x then u :: x :: xs else if u = x then x :: xs else x :: ins u xs

theorem mem_ins (v u : Nat) : ∀ m : List Nat, v ∈ ins u m ↔ v = u ∨ v ∈ m
  | [] => by simp [ins]
  | x :: xs => by
    unfold ins
    by_cases h1 : u < x
    · rw [if_pos h1]; simp [List.mem_cons]
    · rw [if_neg h1]
      by_cases h2 : u = x
      · subst h2; rw [if_pos rfl]; simp [List.mem_cons]
      · rw [if_neg h2]; simp [List.mem_cons, mem_ins v u xs]; tauto

theorem pairwise_ins (u : Nat) :
    ∀ m : List Nat, List.Pairwise (· < ·) m → List.Pairwise (· < ·) (ins u m)
  | [], _ => by simp [ins]
  | x :: xs, hp => by
    rcases List.pairwise_cons.mp hp with ⟨hx, hxs⟩
    unfold ins
    by_cases h1 : u < x
    · rw [if_pos h1]
      refine List.pairwise_cons.mpr ⟨?_, hp⟩
      intro y hy
      rcases List.mem_cons.mp hy with rfl | hy
      · exact h1
      · exact lt_trans h1 (hx y hy)
    · rw [if_neg h1]
      by_cases h2 : u = x
      · rw [if_pos h2]; exact hp
      · rw [if_neg h2]
        refine List.pairwise_cons.mpr ⟨?_, pairwise_ins u xs hxs⟩
        intro y hy
        rcases (mem_ins y u xs).mp hy with rfl | hy
        · omega
        · exact hx y hy

theorem ins_eq_self_of_mem (u : Nat) :
    ∀ m : List Nat, List.Pairwise (· < ·) m → u ∈ m → ins u m = m
  | [], _, h => by cases h
  | x :: xs, hp, h => by
    rcases List.pairwise_cons.mp hp with ⟨hx, hxs⟩
    unfold ins
    rcases List.mem_cons.mp h with rfl | h
    · rw [if_neg (lt_irrefl u), if_pos rfl]
    · have hxu : x < u := hx u h
      rw [if_neg (by omega : ¬ u < x), if_neg (by omega : ¬ u = x),
        ins_eq_self_of_mem u xs hxs h]

theorem add_eq_ins (u : Nat) :
    ∀ m : List Nat, List.Pairwise (· < ·) m → UniverseMap.add m u = ins u m
  | [], _ => by simp [UniverseMap.add, binarySearch, insertAt, ins]
  | x :: xs, hp => by
    rcases List.pairwise_cons.mp hp with ⟨hx, hxs⟩
    by_cases hmem : u ∈ x :: xs
    · unfold UniverseMap.add binarySearch
      rw [if_pos hmem]
      exact (ins_eq_self_of_mem u (x :: xs) hp hmem).symm
    · unfold UniverseMap.add binarySearch
      rw [if_neg hmem]
      rcases Nat.lt_trichotomy u x with h1 | h1 | h1
      · have hc : (x :: xs).countP (fun v => decide (v < u)) = 0 := by
          apply List.countP_eq_zero.mpr
          intro a ha
          rcases List.mem_cons.mp ha with rfl | ha
          · simpa using Nat.not_lt.mpr (le_of_lt h1)
          · simpa using Nat.not_lt.mpr (le_of_lt (lt_trans h1 (hx a ha)))
        rw [hc]
        unfold ins
        rw [if_pos h1]
        rfl
      · exact absurd (h1 ▸ List.mem_cons_self x xs) hmem
      · have hxin : u ∉ xs := fun h => hmem (List.mem_cons_of_mem x h)
        have hc : (x :: xs).countP (fun v => decide (v < u))
            = xs.countP (fun v => decide (v < u)) + 1 := by
          simp [List.countP_cons, h1]
        rw [hc]
        show x :: insertAt (xs.countP (fun v => decide (v < u))) u xs = ins u (x :: xs)
        have hxs' : UniverseMap.add xs u = ins u xs := add_eq_ins u xs hxs
        unfold UniverseMap.add binarySearch at hxs'
        rw [if_neg hxin] at hxs'
        unfold ins
        rw [if_neg (by omega : ¬ u < x), if_neg (by omega : ¬ u = x)]
        exact congrArg (List.cons x) hxs'

theorem mem_insertAt (v u : Nat) : ∀ (i : Nat) (m : List Nat),
    v ∈ insertAt i u m ↔ v = u ∨ v ∈ m
  | 0, m => by simp [insertAt]
  | _ + 1, [] => by simp [insertAt]
  | i + 1, x :: xs => by
    simp [insertAt, List.mem_cons, mem_insertAt v u i xs]; tauto

theorem mem_add (v u : Nat) (m : List Nat) :
    v ∈ UniverseMap.add m u ↔ v = u ∨ v ∈ m := by
  unfold UniverseMap.add binarySearch
  by_cases hmem : u ∈ m
  · rw [if_pos hmem]
    constructor
    · exact Or.inr
    · rintro (rfl | h) <;> [exact hmem; exact h]
  · rw [if_neg hmem]
    exact mem_insertAt v u _ m

theorem pairwise_add (u : Nat) (m : List Nat) (hp : List.Pairwise (· < ·) m) :
    List.Pairwise (· < ·) (UniverseMap.add m u) := by
  rw [add_eq_ins u m hp]
  exact pairwise_ins u m hp

theorem add_eq_self_of_mem (u : Nat) (m : List Nat) (hu : u ∈ m) :
    UniverseMap.add m u = m := by
  unfold UniverseMap.add binarySearch
  rw [if_pos hu]

theorem sorted_get_lt_iff (u : Nat) :
    ∀ (m : List Nat), List.Pairwise (· < ·) m → ∀ (k : Nat) (hk : k < m.length),
      (m.get ⟨k, hk⟩ < u ↔ k < m.countP (fun v => decide (v < u)))
  | [], _, k, hk => by simp at hk
  | x :: xs, hp, k, hk => by
    rcases List.pairwise_cons.mp hp with ⟨hx, hxs⟩
    by_cases hxu : x < u
    · match k with
      | 0 => simp [List.countP_cons, hxu]
      | k + 1 =>
        have ih := sorted_get_lt_iff u xs hxs k (by simpa using hk)
        simpa [List.countP_cons, hxu] using ih
    · have hc : (x :: xs).countP (fun v => decide (v < u)) = 0 := by
        apply List.countP_eq_zero.mpr
        intro a ha
        rcases List.mem_cons.mp ha with rfl | ha
        · simpa using hxu
        · have := hx a ha; simp; omega
      rw [hc]
      simp only [Nat.not_lt_zero, iff_false]
      rcases List.mem_cons.mp (List.get_mem (x :: xs) k hk) with hg | hg
      · rw [hg]; exact hxu
      · have := hx _ hg; omega

theorem countP_get_eq (m : List Nat) (hp : List.Pairwise (· < ·) m)
    (i : Nat) (hi : i < m.length) :
    m.countP (fun v => decide (v < m.get ⟨i, hi⟩)) = i := by
  have h1 : ¬ i < m.countP (fun v => decide (v < m.get ⟨i, hi⟩)) := by
    intro h
    exact lt_irrefl _ ((sorted_get_lt_iff (m.get ⟨i, hi⟩) m hp i hi).mpr h)
  rcases Nat.eq_zero_or_pos i with rfl | hi0
  · omega
  · have hk : i - 1 < m.length := by omega
    have hlt : m.get ⟨i - 1, hk⟩ < m.get ⟨i, hi⟩ :=
      List.pairwise_iff_get.mp hp _ _ (by simp; omega)
    have := (sorted_get_lt_iff (m.get ⟨i, hi⟩) m hp (i - 1) hk).mp hlt
    omega

/-- C5: mapping a universe that is contained in a `UniverseMap` to its
canonical universe and then mapping that canonical universe back from
canonical yields the original universe again. -/
theorem universeMap_roundtrip (m : List Nat) (hInv : UniverseMap.Inv m)
    (u : Nat) (hu : u ∈ m) :
    ∃ c, UniverseMap.mapToCanonical m u = some c ∧
      UniverseMap.mapFromCanonical m c = u := by
  obtain ⟨hs, _⟩ := hInv
  have hp := List.chain'_iff_pairwise.mp hs
  refine ⟨m.countP (fun v => decide (v < u)), ?_, ?_⟩
  · unfold UniverseMap.mapToCanonical binarySearch
    rw [if_pos hu]
  · have hlt := countP_lt_length_of_mem hp hu
    have hget := sorted_getElem?_countP u m hp hu
    unfold UniverseMap.mapFromCanonical
    rw [dif_pos hlt]
    have := List.getElem?_eq_getElem hlt
    rw [this] at hget
    simpa [List.get_eq_getElem] using Option.some.inj hget

/-- C5 witness: round-trip evaluated on the concrete map `[0, 1, 3]` at the
member universe `3`. -/
theorem universeMap_roundtrip_witness :
    UniverseMap.Inv [0, 1, 3] ∧ (3 : Nat) ∈ [0, 1, 3] ∧
      ∃ c, UniverseMap.mapToCanonical [0, 1, 3] 3 = some c ∧
        UniverseMap.mapFromCanonical [0, 1, 3] c = 3 :=
  ⟨⟨by simp, rfl⟩, by decide,
    universeMap_roundtrip [0, 1, 3] ⟨by simp, rfl⟩ 3 (by decide)⟩

/-- C4: for a `UniverseMap` satisfying its invariant,
`map_universe_from_canonical` is strictly monotone in the canonical universe,
both within the map's bounds and beyond them (where the out-of-range formula
`U(max + (c - len) + 1)` applies). -/
theorem mapFromCanonical_strictMono (m : List Nat) (hInv : UniverseMap.Inv m)
    {a b : Nat} (hab : a < b) :
    UniverseMap.mapFromCanonical m a < UniverseMap.mapFromCanonical m b := by
  obtain ⟨hs, hh⟩ := hInv
  have hne : m ≠ [] := by
    intro h; rw [h] at hh; cases hh
  have hp := List.chain'_iff_pairwise.mp hs
  have hlen : 0 < m.length := List.length_pos.mpr hne
  have hlast : ∀ i (h : i < m.length), m.get ⟨i, h⟩ ≤ m.getD (m.length - 1) 0 := by
    intro i h
    have hl : m.length - 1 < m.length := by omega
    have hD : m.getD (m.length - 1) 0 = m.get ⟨m.length - 1, hl⟩ := by
      rw [List.getD_eq_getElem?_getD, List.getElem?_eq_getElem hl]
      simp [List.get_eq_getElem]
    rw [hD]
    rcases Nat.lt_or_ge i (m.length - 1) with hlt | hge
    · exact le_of_lt (List.pairwise_iff_get.mp hp ⟨i, h⟩ ⟨m.length - 1, hl⟩ hlt)
    · have : i = m.length - 1 := by omega
      subst this; exact le_refl _
  unfold UniverseMap.mapFromCanonical
  by_cases hb : b < m.length
  · have ha : a < m.length := lt_trans hab hb
    rw [dif_pos ha, dif_pos hb]
    exact List.pairwise_iff_get.mp hp ⟨a, ha⟩ ⟨b, hb⟩ hab
  · rw [dif_neg hb]
    by_cases ha : a < m.length
    · rw [dif_pos ha]
      have h1 := hlast a ha
      omega
    · rw [dif_neg ha]
      omega

/-- C4 witness: strict monotonicity evaluated on the map `[0, 1, 3]` at the
canonical pair `2 < 5` (index `2` in range, index `5` out of range). -/
theorem mapFromCanonical_strictMono_witness :
    UniverseMap.Inv [0, 1, 3] ∧ (2 : Nat) < 5 ∧
      UniverseMap.mapFromCanonical [0, 1, 3] 2 <
        UniverseMap.mapFromCanonical [0, 1, 3] 5 :=
  ⟨⟨by simp, rfl⟩, by decide,
    mapFromCanonical_strictMono [0, 1, 3] ⟨by simp, rfl⟩ (by decide)⟩

/-! ## U-canonicalization (`src/solve/infer/ucanonicalize.rs`)

The generic fold driver is modelled from the spec (section 4.1): the
universal callbacks fire on each `ForAll(U)` occurrence (skolem types carry
no parameters, so the callback's result `ForAll(U').to_ty()` replaces the
whole application), existential variables are handled by the identity
existential folder. -/

mutual
/-- The `UCollector` pass of `u_canonicalize` on a type: a no-op on the value
that adds every universe found on a skolem to the universe vector. -/
def collectTy (t : Ty) (m : List Nat) : List Nat :=
  match t with
  | .var _ => m
  | .apply (.forAll u) _ => UniverseMap.add m u
  | .apply _ ps => collectParams ps m
  | .proj _ ps => collectParams ps m
  | .unselProj _ ps => collectParams ps m
  | .forAllTy _ inner => collectTy inner m

/-- `UCollector` threaded left-to-right through a parameter list. -/
def collectParams (ps : Params) (m : List Nat) : List Nat :=
  match ps with
  | .nil => m
  | .cons p rest => collectParams rest (collectParam p m)

/-- `UCollector` on a single parameter (`fold_free_universal_lifetime` adds
the universe of a lifetime skolem; existential variables are left alone; no
universal consts exist in the term language). -/
def collectParam (p : Param) (m : List Nat) : List Nat :=
  match p with
  | .ty t => collectTy t m
  | .life (.var _) => m
  | .life (.foralll u) => UniverseMap.add m u
  | .cst (.var _) => m
end

mutual
/-- Modelled from the spec: the universes that appear (necessarily free) on
skolems — `ForAll(U)` types and lifetimes — inside a type, in traversal
order. -/
def Ty.skolemUniverses : Ty → List Nat
  | .var _ => []
  | .apply (.forAll u) _ => [u]
  | .apply _ ps => Params.skolemUniverses ps
  | .proj _ ps => Params.skolemUniverses ps
  | .unselProj _ ps => Params.skolemUniverses ps
  | .forAllTy _ inner => Ty.skolemUniverses inner

/-- Skolem universes of a parameter list. -/
def Params.skolemUniverses : Params → List Nat
  | .nil => []
  | .cons p rest => Param.skolemUniverses p ++ Params.skolemUniverses rest

/-- Skolem universes of a parameter. -/
def Param.skolemUniverses : Param → List Nat
  | .ty t => Ty.skolemUniverses t
  | .life (.var _) => []
  | .life (.foralll u) => [u]
  | .cst (.var _) => []
end

mutual
/-- The `UMapToCanonical` pass of `u_canonicalize` on a type: each skolem
universe is rewritten through `map_universe_to_canonical` (whose assert is
modelled by `Option`); existential variables are left alone. -/
def umapTy (m : List Nat) (t : Ty) : Option Ty :=
  match t with
  | .var d => some (.var d)
  | .apply (.forAll u) _ =>
    (UniverseMap.mapToCanonical m u).map (fun c => .apply (.forAll c) .nil)
  | .apply n ps => (umapParams m ps).map (fun qs => .apply n qs)
  | .proj i ps => (umapParams m ps).map (fun qs => .proj i qs)
  | .unselProj i ps => (umapParams m ps).map (fun qs => .unselProj i qs)
  | .forAllTy n inner => (umapTy m inner).map (fun t2 => .forAllTy n t2)

/-- `UMapToCanonical` on a parameter list. -/
def umapParams (m : List Nat) (ps : Params) : Option Params :=
  match ps with
  | .nil => some .nil
  | .cons p rest =>
    match umapParam m p, umapParams m rest with
    | some q, some qs => some (.cons q qs)
    | _, _ => none

/-- `UMapToCanonical` on a parameter. -/
def umapParam (m : List Nat) (p : Param) : Option Param :=
  match p with
  | .ty t => (umapTy m t).map .ty
  | .life (.var d) => some (.life (.var d))
  | .life (.foralll u) =>
    (UniverseMap.mapToCanonical m u).map (fun c => .life (.foralll c))
  | .cst (.var d) => some (.cst (.var d))
end

/-- Modelled from the spec: `Canonical<T>` — a value under a list of
existential binders, each binder recording its kind and universe. -/
structure Canonical (α : Type) where
  value : α
  binders : List (PKind Nat)

/-- Modelled from the spec: `UCanonical<T>` — a canonical value plus the
number of distinct universes. -/
structure UCanonical (α : Type) where
  universes : Nat
  canonical : Canonical α

/-- The result record of `u_canonicalize`: the quantified value and the
universe map. -/
structure UCanonicalized (α : Type) where
  quantified : UCanonical α
  universes : List Nat

/-- The binder remapping of `u_canonicalize`:
`pk.map(|ui| universes.map_universe_to_canonical(ui))` for each binder. -/
def umapBinder (m : List Nat) (pk : PKind Nat) : Option (PKind Nat) :=
  match pk with
  | .ty u => (UniverseMap.mapToCanonical m u).map .ty
  | .life u => (UniverseMap.mapToCanonical m u).map .life
  | .cst u => (UniverseMap.mapToCanonical m u).map .cst

/-- Binder list remapping of `u_canonicalize`. -/
def umapBinders (m : List Nat) : List (PKind Nat) → Option (List (PKind Nat))
  | [] => some []
  | pk :: rest =>
    match umapBinder m pk, umapBinders m rest with
    | some q, some qs => some (q :: qs)
    | _, _ => none

/-- `InferenceTable::u_canonicalize` for a payload of type `Ty`: collect the
universes of the payload into a map seeded with `U0`, remap the payload and
the binder universes through it, and record the vector's length as the
number of canonical universes. -/
def uCanonicalize (v : Canonical Ty) : Option (UCanonicalized Ty) :=
  let universes := collectTy v.value UniverseMap.new
  match umapTy universes v.value, umapBinders universes v.binders with
  | some value1, some binders1 =>
    some { quantified :=
             { universes := UniverseMap.numCanonicalUniverses universes,
               canonical := { value := value1, binders := binders1 } },
           universes := universes }
  | _, _ => none

/-- Concrete payload for the compression scenario: a nominal type applied to
the two skolems `ForAll(U1)` and `ForAll(U3)`. -/
def payloadC2 : Ty :=
  .apply (.itemId 7)
    (.cons (.ty (.apply (.forAll 1) .nil))
      (.cons (.ty (.apply (.forAll 3) .nil)) .nil))

/-- The compression scenario's expected output payload: `ForAll(U1)` is kept
and `ForAll(U3)` becomes `ForAll(U2)`. -/
def payloadC2res : Ty :=
  .apply (.itemId 7)
    (.cons (.ty (.apply (.forAll 1) .nil))
      (.cons (.ty (.apply (.forAll 2) .nil)) .nil))

/-- C2: `map_universe_to_canonical` sends a universe occurring at index `i`
of the map to the canonical universe `Ui`, and a universe absent from the
map to the largest canonical universe whose original is strictly below it;
consequently u-canonicalizing a `Canonical` with binders `[Ty@U2]` and a
payload mentioning `ForAll(U1)` and `ForAll(U3)` collects the map
`[U0, U1, U3]` and returns binders `[Ty@U1]`, a payload using `ForAll(U1)`
and `ForAll(U2)`, and `universes = 3`. -/
theorem mapToCanonical_spec :
    (∀ m : List Nat, UniverseMap.Inv m →
      (∀ (i : Nat) (h : i < m.length),
        UniverseMap.mapToCanonical m (m.get ⟨i, h⟩) = some i) ∧
      (∀ u : Nat, u ∉ m →
        ∃ (j : Nat) (hj : j < m.length),
          UniverseMap.mapToCanonical m u = some j ∧ m.get ⟨j, hj⟩ < u ∧
          ∀ (k : Nat) (hk : k < m.length), m.get ⟨k, hk⟩ < u → k ≤ j)) ∧
    uCanonicalize ⟨payloadC2, [.ty 2]⟩ =
      some { quantified :=
               { universes := 3,
                 canonical := { value := payloadC2res, binders := [.ty 1] } },
             universes := [0, 1, 3] } := by
  constructor
  · intro m hInv
    obtain ⟨hs, hh⟩ := hInv
    have hp := List.chain'_iff_pairwise.mp hs
    have h0m : 0 ∈ m := by
      cases m with
      | nil => cases hh
      | cons x xs =>
        have hx : x = 0 := by simpa using hh
        exact hx ▸ List.mem_cons_self x xs
    constructor
    · intro i h
      unfold UniverseMap.mapToCanonical binarySearch
      rw [if_pos (List.get_mem m i h)]
      rw [countP_get_eq m hp i h]
    · intro u hu
      have hu0 : 0 < u := by
        rcases Nat.eq_zero_or_pos u with rfl | h
        · exact absurd h0m hu
        · exact h
      have hcntpos : 0 < m.countP (fun v => decide (v < u)) :=
        List.countP_pos_iff.mpr ⟨0, h0m, by simpa using hu0⟩
      have hcntle : m.countP (fun v => decide (v < u)) ≤ m.length :=
        m.countP_le_length _
      refine ⟨m.countP (fun v => decide (v < u)) - 1, by omega, ?_, ?_, ?_⟩
      · unfold UniverseMap.mapToCanonical binarySearch
        rw [if_neg hu]
        simp [hcntpos]
      · exact (sorted_get_lt_iff u m hp _ (by omega)).mpr (by omega)
      · intro k hk hlt
        have := (sorted_get_lt_iff u m hp k hk).mp hlt
        omega
  · rfl

/-- C2 witness: the general mapping statement instantiated at the concrete
map `[0, 1, 3]` and index `1`. -/
theorem mapToCanonical_spec_witness :
    UniverseMap.Inv [0, 1, 3] ∧
      UniverseMap.mapToCanonical [0, 1, 3] ([0, 1, 3].get ⟨1, by decide⟩) = some 1 :=
  ⟨⟨by simp, rfl⟩, (mapToCanonical_spec.1 [0, 1, 3] ⟨by simp, rfl⟩).1 1 (by decide)⟩

mutual
theorem mem_collectTy (v : Nat) : ∀ (t : Ty) (m : List Nat),
    (v ∈ collectTy t m ↔ v ∈ m ∨ v ∈ Ty.skolemUniverses t)
  | .var _, m => by simp [collectTy, Ty.skolemUniverses]
  | .apply (.forAll u) _, m => by
    simp only [collectTy, Ty.skolemUniverses, mem_add, List.mem_singleton]
    tauto
  | .apply (.itemId _) ps, m => by
    simpa [collectTy, Ty.skolemUniverses] using mem_collectParams v ps m
  | .apply (.assocType _) ps, m => by
    simpa [collectTy, Ty.skolemUniverses] using mem_collectParams v ps m
  | .proj _ ps, m => by
    simpa [collectTy, Ty.skolemUniverses] using mem_collectParams v ps m
  | .unselProj _ ps, m => by
    simpa [collectTy, Ty.skolemUniverses] using mem_collectParams v ps m
  | .forAllTy _ inner, m => by
    simpa [collectTy, Ty.skolemUniverses] using mem_collectTy v inner m

theorem mem_collectParams (v : Nat) : ∀ (ps : Params) (m : List Nat),
    (v ∈ collectParams ps m ↔ v ∈ m ∨ v ∈ Params.skolemUniverses ps)
  | .nil, m => by simp [collectParams, Params.skolemUniverses]
  | .cons p rest, m => by
    have h1 := mem_collectParam v p m
    have h2 := mem_collectParams v rest (collectParam p m)
    simp only [collectParams, Params.skolemUniverses, h2, h1, List.mem_append]
    tauto

theorem mem_collectParam (v : Nat) : ∀ (p : Param) (m : List Nat),
    (v ∈ collectParam p m ↔ v ∈ m ∨ v ∈ Param.skolemUniverses p)
  | .ty t, m => by
    simpa [collectParam, Param.skolemUniverses] using mem_collectTy v t m
  | .life (.var _), m => by simp [collectParam, Param.skolemUniverses]
  | .life (.foralll u), m => by
    simp only [collectParam, Param.skolemUniverses, mem_add, List.mem_singleton]
    tauto
  | .cst (.var _), m => by simp [collectParam, Param.skolemUniverses]
end

mutual
theorem sorted_collectTy : ∀ (t : Ty) (m : List Nat),
    List.Pairwise (· < ·) m → List.Pairwise (· < ·) (collectTy t m)
  | .var _, _, hp => by simpa [collectTy] using hp
  | .apply (.forAll u) _, m, hp => by simpa [collectTy] using pairwise_add u m hp
  | .apply (.itemId _) ps, m, hp => by
    simpa [collectTy] using sorted_collectParams ps m hp
  | .apply (.assocType _) ps, m, hp => by
    simpa [collectTy] using sorted_collectParams ps m hp
  | .proj _ ps, m, hp => by simpa [collectTy] using sorted_collectParams ps m hp
  | .unselProj _ ps, m, hp => by
    simpa [collectTy] using sorted_collectParams ps m hp
  | .forAllTy _ inner, m, hp => by simpa [collectTy] using sorted_collectTy inner m hp

theorem sorted_collectParams : ∀ (ps : Params) (m : List Nat),
    List.Pairwise (· < ·) m → List.Pairwise (· < ·) (collectParams ps m)
  | .nil, _, hp => by simpa [collectParams] using hp
  | .cons p rest, m, hp => by
    simpa [collectParams] using
      sorted_collectParams rest (collectParam p m) (sorted_collectParam p m hp)

theorem sorted_collectParam : ∀ (p : Param) (m : List Nat),
    List.Pairwise (· < ·) m → List.Pairwise (· < ·) (collectParam p m)
  | .ty t, m, hp => by simpa [collectParam] using sorted_collectTy t m hp
  | .life (.var _), _, hp => by simpa [collectParam] using hp
  | .life (.foralll u), m, hp => by simpa [collectParam] using pairwise_add u m hp
  | .cst (.var _), _, hp => by simpa [collectParam] using hp
end

theorem head?_eq_zero_of_sorted (m : List Nat)
    (hp : List.Pairwise (· < ·) m) (h0 : 0 ∈ m) : m.head? = some 0 := by
  cases m with
  | nil => cases h0
  | cons x xs =>
    rcases List.mem_cons.mp h0 with h | h
    · rw [← h]; rfl
    · have := (List.pairwise_cons.mp hp).1 0 h
      omega

/-- C8: for any payload, the collection pass of `u_canonicalize` produces a
universe vector containing exactly the universes that appear on skolems in
the payload plus `U0`, strictly increasing and with `U0` at position `0`;
`UniverseMap::add` preserves sortedness and never inserts a duplicate. -/
theorem collection_pass_spec (c : Canonical Ty) :
    (∀ v, v ∈ collectTy c.value UniverseMap.new ↔
        v = 0 ∨ v ∈ Ty.skolemUniverses c.value) ∧
    List.Chain' (· < ·) (collectTy c.value UniverseMap.new) ∧
    (collectTy c.value UniverseMap.new).head? = some 0 ∧
    (∀ (m : List Nat) (u : Nat), List.Chain' (· < ·) m →
      List.Chain' (· < ·) (UniverseMap.add m u) ∧
        (u ∈ m → UniverseMap.add m u = m)) := by
  have hnew : List.Pairwise (· < ·) UniverseMap.new := by
    simp [UniverseMap.new]
  have hmem : ∀ v, v ∈ collectTy c.value UniverseMap.new ↔
      v = 0 ∨ v ∈ Ty.skolemUniverses c.value := by
    intro v
    rw [mem_collectTy v c.value UniverseMap.new]
    simp [UniverseMap.new]
  have hsorted := sorted_collectTy c.value UniverseMap.new hnew
  refine ⟨hmem, List.chain'_iff_pairwise.mpr hsorted, ?_, ?_⟩
  · exact head?_eq_zero_of_sorted _ hsorted ((hmem 0).mpr (Or.inl rfl))
  · intro m u hm
    have hp := List.chain'_iff_pairwise.mp hm
    exact ⟨List.chain'_iff_pairwise.mpr (pairwise_add u m hp),
      add_eq_self_of_mem u m⟩

/-- Concrete payload used by the C8 witness: skolems `ForAll(U4)` and
`ForAll(U1)` under a `forall` type. -/
def payloadC8 : Ty :=
  .forAllTy 1
    (.apply (.itemId 5)
      (.cons (.ty (.apply (.forAll 4) .nil))
        (.cons (.life (.foralll 1)) .nil)))

/-- C8 witness: the collection-pass characterization evaluated on a concrete
payload, and `add` evaluated on the concrete sorted map `[0, 3]`. -/
theorem collection_pass_spec_witness :
    (4 ∈ collectTy payloadC8 UniverseMap.new ↔
        4 = 0 ∨ 4 ∈ Ty.skolemUniverses payloadC8) ∧
      List.Chain' (· < ·) (UniverseMap.add [0, 3] 2) ∧
      (3 ∈ [0, 3] → UniverseMap.add [0, 3] 3 = [0, 3]) :=
  ⟨(collection_pass_spec ⟨payloadC8, []⟩).1 4,
    ((collection_pass_spec ⟨payloadC8, []⟩).2.2.2 [0, 3] 2 (by simp)).1,
    ((collection_pass_spec ⟨payloadC8, []⟩).2.2.2 [0, 3] 3 (by simp)).2⟩

/-! ## Shifting and the existential instantiator
(`src/solve/infer/instantiate.rs`)

`up_shift(n)` adds `n` to every free variable depth; `down_shift(n)`
subtracts `n` and fails when a free depth is below `n`.  Both are folders of
the modelled framework and track the running binder count. -/

/-- `up_shift` on a lifetime, tracking `b` enclosing binders. -/
def Lifetime.upShiftFrom (n b : Nat) : Lifetime → Lifetime
  | .var d => if d < b then .var d else .var (d + n)
  | .foralll u => .foralll u

/-- `up_shift` on a const, tracking `b` enclosing binders. -/
def Const.upShiftFrom (n b : Nat) : Const → Const
  | .var d => if d < b then .var d else .var (d + n)

mutual
/-- `up_shift` on a type, tracking `b` enclosing binders. -/
def Ty.upShiftFrom (n b : Nat) : Ty → Ty
  | .var d => if d < b then .var d else .var (d + n)
  | .apply (.forAll u) _ => .apply (.forAll u) .nil
  | .apply nm ps => .apply nm (Params.upShiftFrom n b ps)
  | .proj i ps => .proj i (Params.upShiftFrom n b ps)
  | .unselProj i ps => .unselProj i (Params.upShiftFrom n b ps)
  | .forAllTy k inner => .forAllTy k (Ty.upShiftFrom n (b + k) inner)

/-- `up_shift` on a parameter list. -/
def Params.upShiftFrom (n b : Nat) : Params → Params
  | .nil => .nil
  | .cons p ps => .cons (Param.upShiftFrom n b p) (Params.upShiftFrom n b ps)

/-- `up_shift` on a parameter. -/
def Param.upShiftFrom (n b : Nat) : Param → Param
  | .ty t => .ty (Ty.upShiftFrom n b t)
  | .life l => .life (Lifetime.upShiftFrom n b l)
  | .cst c => .cst (Const.upShiftFrom n b c)
end

/-- `up_shift(n)` of a type in the caller's scope. -/
def Ty.upShift (n : Nat) (t : Ty) : Ty := Ty.upShiftFrom n 0 t

/-- `up_shift(n)` of a lifetime in the caller's scope. -/
def Lifetime.upShift (n : Nat) (l : Lifetime) : Lifetime := Lifetime.upShiftFrom n 0 l

/-- `up_shift(n)` of a const in the caller's scope. -/
def Const.upShift (n : Nat) (c : Const) : Const := Const.upShiftFrom n 0 c

/-- `down_shift` on a lifetime, failing on a free depth below `n`. -/
def Lifetime.downShiftFrom (n b : Nat) : Lifetime → Option Lifetime
  | .var d =>
    if d < b then some (.var d)
    else if d - b < n then none else some (.var (d - n))
  | .foralll u => some (.foralll u)

/-- `down_shift` on a const, failing on a free depth below `n`. -/
def Const.downShiftFrom (n b : Nat) : Const → Option Const
  | .var d =>
    if d < b then some (.var d)
    else if d - b < n then none else some (.var (d - n))

mutual
/-- `down_shift` on a type, failing on a free depth below `n`. -/
def Ty.downShiftFrom (n b : Nat) : Ty → Option Ty
  | .var d =>
    if d < b then some (.var d)
    else if d - b < n then none else some (.var (d - n))
  | .apply (.forAll u) _ => some (.apply (.forAll u) .nil)
  | .apply nm ps => (Params.downShiftFrom n b ps).map (fun qs => .apply nm qs)
  | .proj i ps => (Params.downShiftFrom n b ps).map (fun qs => .proj i qs)
  | .unselProj i ps => (Params.downShiftFrom n b ps).map (fun qs => .unselProj i qs)
  | .forAllTy k inner => (Ty.downShiftFrom n (b + k) inner).map (fun t => .forAllTy k t)

/-- `down_shift` on a parameter list. -/
def Params.downShiftFrom (n b : Nat) : Params → Option Params
  | .nil => some .nil
  | .cons p ps =>
    match Param.downShiftFrom n b p, Params.downShiftFrom n b ps with
    | some q, some qs => some (.cons q qs)
    | _, _ => none

/-- `down_shift` on a parameter. -/
def Param.downShiftFrom (n b : Nat) : Param → Option Param
  | .ty t => (Ty.downShiftFrom n b t).map .ty
  | .life l => (Lifetime.downShiftFrom n b l).map .life
  | .cst c => (Const.downShiftFrom n b c).map .cst
end

/-- `down_shift(n)` of a parameter in the caller's scope. -/
def Param.downShift (n : Nat) (p : Param) : Option Param := Param.downShiftFrom n 0 p

/-- `Instantiator::fold_free_existential_ty` from
`src/solve/infer/instantiate.rs`: a free variable below `vars.len()` is
replaced by the corresponding parameter up-shifted by the running binder
count (the `assert_ty_ref` kind check is modelled by `Option`); deeper
variables are shifted down across the instantiated binders. -/
def foldFreeExistentialTy (vars : List Param) (depth b : Nat) : Option Ty :=
  if h : depth < vars.length then
    match vars.get ⟨depth, h⟩ with
    | .ty t => some (Ty.upShift b t)
    | _ => none
  else some (.var (depth + b - vars.length))

/-- `Instantiator::fold_free_existential_lifetime`. -/
def foldFreeExistentialLifetime (vars : List Param) (depth b : Nat) : Option Lifetime :=
  if h : depth < vars.length then
    match vars.get ⟨depth, h⟩ with
    | .life l => some (Lifetime.upShift b l)
    | _ => none
  else some (.var (depth + b - vars.length))

/-- `Instantiator::fold_free_existential_const`. -/
def foldFreeExistentialConst (vars : List Param) (depth b : Nat) : Option Const :=
  if h : depth < vars.length then
    match vars.get ⟨depth, h⟩ with
    | .cst c => some (Const.upShift b c)
    | _ => none
  else some (.var (depth + b - vars.length))

/-- The `Instantiator` fold on a lifetime: free variables go through the
existential callback, skolems are left alone. -/
def instFoldLifetime (vars : List Param) (b : Nat) : Lifetime → Option Lifetime
  | .var d =>
    if d < b then some (.var d) else foldFreeExistentialLifetime vars (d - b) b
  | .foralll u => some (.foralll u)

/-- The `Instantiator` fold on a const. -/
def instFoldConst (vars : List Param) (b : Nat) : Const → Option Const
  | .var d =>
    if d < b then some (.var d) else foldFreeExistentialConst vars (d - b) b

mutual
/-- The `Instantiator` fold on a type (the fold driver is modelled from the
spec: a `Var(d)` with `d ≥ binders` reaches the existential callback at free
depth `d - binders`; the universal callbacks are the identity). -/
def instFoldTy (vars : List Param) (b : Nat) : Ty → Option Ty
  | .var d => if d < b then some (.var d) else foldFreeExistentialTy vars (d - b) b
  | .apply (.forAll u) _ => some (.apply (.forAll u) .nil)
  | .apply nm ps => (instFoldParams vars b ps).map (fun qs => .apply nm qs)
  | .proj i ps => (instFoldParams vars b ps).map (fun qs => .proj i qs)
  | .unselProj i ps => (instFoldParams vars b ps).map (fun qs => .unselProj i qs)
  | .forAllTy k inner => (instFoldTy vars (b + k) inner).map (fun t => .forAllTy k t)

/-- The `Instantiator` fold on a parameter list. -/
def instFoldParams (vars : List Param) (b : Nat) : Params → Option Params
  | .nil => some .nil
  | .cons p ps =>
    match instFoldParam vars b p, instFoldParams vars b ps with
    | some q, some qs => some (.cons q qs)
    | _, _ => none

/-- The `Instantiator` fold on a parameter. -/
def instFoldParam (vars : List Param) (b : Nat) : Param → Option Param
  | .ty t => (instFoldTy vars b t).map .ty
  | .life l => (instFoldLifetime vars b l).map .life
  | .cst c => (instFoldConst vars b c).map .cst
end

/-- C6: the existential instantiator's depth arithmetic, uniformly for the
type, lifetime and const callbacks: a free `Var(depth)` under `binders`
enclosing binders becomes `vars[depth]` up-shifted by `binders` when
`depth < vars.len()`, and `Var(depth + binders - vars.len())` otherwise. -/
theorem instantiator_depth_arith (vars : List Param) (depth binders : Nat) :
    (∀ t, vars.get? depth = some (.ty t) →
      instFoldTy vars binders (.var (depth + binders)) = some (Ty.upShift binders t)) ∧
    (∀ l, vars.get? depth = some (.life l) →
      instFoldLifetime vars binders (.var (depth + binders))
        = some (Lifetime.upShift binders l)) ∧
    (∀ c, vars.get? depth = some (.cst c) →
      instFoldConst vars binders (.var (depth + binders))
        = some (Const.upShift binders c)) ∧
    (vars.length ≤ depth →
      instFoldTy vars binders (.var (depth + binders))
          = some (.var (depth + binders - vars.length)) ∧
        instFoldLifetime vars binders (.var (depth + binders))
          = some (.var (depth + binders - vars.length)) ∧
        instFoldConst vars binders (.var (depth + binders))
          = some (.var (depth + binders - vars.length))) := by
  have hnb : ¬ depth + binders < binders := by omega
  have hdb : depth + binders - binders = depth := by omega
  refine ⟨?_, ?_, ?_, ?_⟩
  · intro t hget
    obtain ⟨hlt, hgeteq⟩ := List.get?_eq_some.mp hget
    simp only [instFoldTy, if_neg hnb, hdb, foldFreeExistentialTy, dif_pos hlt, hgeteq]
  · intro l hget
    obtain ⟨hlt, hgeteq⟩ := List.get?_eq_some.mp hget
    simp only [instFoldLifetime, if_neg hnb, hdb, foldFreeExistentialLifetime,
      dif_pos hlt, hgeteq]
  · intro c hget
    obtain ⟨hlt, hgeteq⟩ := List.get?_eq_some.mp hget
    simp only [instFoldConst, if_neg hnb, hdb, foldFreeExistentialConst,
      dif_pos hlt, hgeteq]
  · intro hge
    have hnl : ¬ depth < vars.length := by omega
    refine ⟨?_, ?_, ?_⟩
    · simp only [instFoldTy, if_neg hnb, hdb, foldFreeExistentialTy, dif_neg hnl]
    · simp only [instFoldLifetime, if_neg hnb, hdb, foldFreeExistentialLifetime,
        dif_neg hnl]
    · simp only [instFoldConst, if_neg hnb, hdb, foldFreeExistentialConst,
        dif_neg hnl]

/-- C6 witness: the depth arithmetic evaluated in a replacement list of
length two, under one enclosing binder, for both the hit and the miss
cases. -/
theorem instantiator_depth_arith_witness :
    ([Param.ty (.var 4), Param.life (.foralll 1)].get? 0 = some (.ty (.var 4))) ∧
      instFoldTy [Param.ty (.var 4), Param.life (.foralll 1)] 1 (.var 1)
        = some (Ty.upShift 1 (.var 4)) ∧
      instFoldConst [Param.ty (.var 4), Param.life (.foralll 1)] 1 (.var 6)
        = some (.var 4) :=
  ⟨rfl,
    (instantiator_depth_arith [Param.ty (.var 4), Param.life (.foralll 1)] 0 1).1
      (.var 4) rfl,
    ((instantiator_depth_arith [Param.ty (.var 4), Param.life (.foralll 1)] 5 1).2.2.2
      (by decide)).2.2⟩

/-! ## Universal instantiation (`instantiate_binders_universally`) -/

/-- Modelled from the spec: the fragment of the inference table that
universal instantiation touches — its maximum allocated universe. -/
structure InfTable where
  maxUniverse : Nat
deriving DecidableEq

/-- Modelled from the spec: `new_universe` allocates a fresh universe
strictly greater than all prior ones and records it as the new maximum. -/
def InfTable.newUniverse (t : InfTable) : Nat × InfTable :=
  (t.maxUniverse + 1, ⟨t.maxUniverse + 1⟩)

/-- Modelled from the spec: a `Binders<Ty>` value — bound parameter kinds
plus a payload. -/
structure BindersTy where
  binders : List (PKind Unit)
  value : Ty

/-- The parameter vector built by `instantiate_binders_universally`: one
fresh universe per binder, a skolem of the binder's kind for types and
lifetimes, and `unimplemented!()` (modelled by `none`) for consts.  As in
the source, the fresh universe is allocated before the kind is examined. -/
def mkUnivParams : InfTable → List (PKind Unit) → Option (List Param × InfTable)
  | t, [] => some ([], t)
  | t, pk :: rest =>
    let p := t.newUniverse
    match pk with
    | .life _ =>
      (mkUnivParams p.2 rest).map
        (fun q => (Param.life (.foralll p.1) :: q.1, q.2))
    | .cst _ => none
    | .ty _ =>
      (mkUnivParams p.2 rest).map
        (fun q => (Param.ty (.apply (.forAll p.1) .nil) :: q.1, q.2))

/-- Modelled from the spec: `Subst::apply(parameters, value)` replaces each
bound variable of the payload with the corresponding parameter, using the
same depth arithmetic as the existential instantiator. -/
def substApply (params : List Param) (t : Ty) : Option Ty := instFoldTy params 0 t

/-- `InferenceTable::instantiate_binders_universally` from
`src/solve/infer/instantiate.rs`: build one skolem parameter per binder
(allocating a fresh universe each) and substitute them into the payload. -/
def instantiateBindersUniversally (t : InfTable) (b : BindersTy) :
    Option (Ty × InfTable) :=
  match mkUnivParams t b.binders with
  | none => none
  | some (params, t1) =>
    match substApply params b.value with
    | none => none
    | some v => some (v, t1)

/-- The skolem parameter of a given kind at a given universe (`none` for the
unimplemented const kind). -/
def univSkolem (pk : PKind Unit) (u : Nat) : Option Param :=
  match pk with
  | .ty _ => some (.ty (.apply (.forAll u) .nil))
  | .life _ => some (.life (.foralll u))
  | .cst _ => none

theorem mkUnivParams_spec :
    ∀ (bs : List (PKind Unit)) (t : InfTable),
      (∀ pk ∈ bs, pk = PKind.ty () ∨ pk = PKind.life ()) →
      ∃ params t1, mkUnivParams t bs = some (params, t1) ∧
        params.length = bs.length ∧
        t1.maxUniverse = t.maxUniverse + bs.length ∧
        ∀ k, k < bs.length →
          params.get? k
            = (bs.get? k).bind (fun pk => univSkolem pk (t.maxUniverse + k + 1))
  | [], t, _ => ⟨[], t, rfl, rfl, by simp, by intro k hk; simp at hk⟩
  | pk :: rest, t, hk => by
    obtain ⟨params', t1, heq, hlen, hmax, hidx⟩ :=
      mkUnivParams_spec rest ⟨t.maxUniverse + 1⟩
        (fun q hq => hk q (List.mem_cons_of_mem pk hq))
    rcases hk pk (List.mem_cons_self pk rest) with rfl | rfl
    · refine ⟨Param.ty (.apply (.forAll (t.maxUniverse + 1)) .nil) :: params', t1,
        ?_, by simpa using hlen, by simp at hmax ⊢; omega, ?_⟩
      · simp [mkUnivParams, InfTable.newUniverse, heq]
      · intro k hklt
        match k with
        | 0 => simp [univSkolem]
        | k + 1 =>
          have := hidx k (by simpa using hklt)
          simpa [Nat.add_assoc, Nat.add_comm, Nat.add_left_comm] using this
    · refine ⟨Param.life (.foralll (t.maxUniverse + 1)) :: params', t1,
        ?_, by simpa using hlen, by simp at hmax ⊢; omega, ?_⟩
      · simp [mkUnivParams, InfTable.newUniverse, heq]
      · intro k hklt
        match k with
        | 0 => simp [univSkolem]
        | k + 1 =>
          have := hidx k (by simpa using hklt)
          simpa [Nat.add_assoc, Nat.add_comm, Nat.add_left_comm] using this

/-- The concrete `for<'a> P<'a>` of the universal-instantiation scenario. -/
def bindersC7 : BindersTy :=
  ⟨[.life ()], .apply (.itemId 9) (.cons (.life (.var 0)) .nil)⟩

/-- The expected result `P<ForAll(U2)>` of the universal-instantiation
scenario. -/
def tyC7res : Ty := .apply (.itemId 9) (.cons (.life (.foralll 2)) .nil)

/-- C7: for binder lists of Type and Lifetime kinds,
`instantiate_binders_universally` allocates one fresh universe per binder
and builds a skolem of the binder's kind at that universe, substituting
them into the payload; concretely, universally instantiating `for<'a> P<'a>`
at a table with `max_universe = U1` creates `U2`, returns `P<ForAll(U2)>`
and leaves `max_universe = U2`. -/
theorem instantiateBindersUniversally_spec (t : InfTable) (b : BindersTy)
    (hk : ∀ pk ∈ b.binders, pk = PKind.ty () ∨ pk = PKind.life ()) :
    (∃ params t1, mkUnivParams t b.binders = some (params, t1) ∧
      params.length = b.binders.length ∧
      t1.maxUniverse = t.maxUniverse + b.binders.length ∧
      (∀ k, k < b.binders.length →
        params.get? k
          = (b.binders.get? k).bind (fun pk => univSkolem pk (t.maxUniverse + k + 1))) ∧
      instantiateBindersUniversally t b
        = (substApply params b.value).map (fun v => (v, t1))) ∧
    instantiateBindersUniversally ⟨1⟩ bindersC7 = some (tyC7res, ⟨2⟩) := by
  obtain ⟨params, t1, heq, hlen, hmax, hidx⟩ := mkUnivParams_spec b.binders t hk
  refine ⟨⟨params, t1, heq, hlen, hmax, hidx, ?_⟩, rfl⟩
  unfold instantiateBindersUniversally
  rw [heq]
  cases h : substApply params b.value <;> simp [h]

/-- C7 witness: the parameter-vector characterization applied to the
concrete scenario's binders and table. -/
theorem instantiateBindersUniversally_spec_witness :
    (∀ pk ∈ bindersC7.binders, pk = PKind.ty () ∨ pk = PKind.life ()) ∧
      ∃ params t1, mkUnivParams ⟨1⟩ bindersC7.binders = some (params, t1) ∧
        params.length = bindersC7.binders.length ∧
        t1.maxUniverse = 1 + bindersC7.binders.length ∧
        (∀ k, k < bindersC7.binders.length →
          params.get? k
            = (bindersC7.binders.get? k).bind (fun pk => univSkolem pk (1 + k + 1))) ∧
        instantiateBindersUniversally ⟨1⟩ bindersC7
          = (substApply params bindersC7.value).map (fun v => (v, t1)) :=
  ⟨fun pk hpk => by
      simp only [bindersC7, List.mem_singleton] at hpk
      exact Or.inr hpk,
    (instantiateBindersUniversally_spec ⟨1⟩ bindersC7
      (fun pk hpk => by
        simp only [bindersC7, List.mem_singleton] at hpk
        exact Or.inr hpk)).1⟩

theorem mkUnivParams_none_of_cst :
    ∀ (bs : List (PKind Unit)) (t : InfTable), PKind.cst () ∈ bs →
      mkUnivParams t bs = none
  | [], _, h => by cases h
  | pk :: rest, t, hmem => by
    cases pk with
    | cst a => rfl
    | ty a =>
      have hr : PKind.cst () ∈ rest := by
        rcases List.mem_cons.mp hmem with heq | hr
        · simp at heq
        · exact hr
      simp [mkUnivParams, InfTable.newUniverse,
        mkUnivParams_none_of_cst rest ⟨t.maxUniverse + 1⟩ hr]
    | life a =>
      have hr : PKind.cst () ∈ rest := by
        rcases List.mem_cons.mp hmem with heq | hr
        · simp at heq
        · exact hr
      simp [mkUnivParams, InfTable.newUniverse,
        mkUnivParams_none_of_cst rest ⟨t.maxUniverse + 1⟩ hr]

/-- C10: `instantiate_binders_universally` on a binder list containing a
Const entry hits `unimplemented!()` — modelled as `none` — regardless of the
payload; the function's return type has no `NoSolution` channel at all, so
the failure is a panic, not a recoverable error. -/
theorem instantiateBindersUniversally_const_panics (t : InfTable) (b : BindersTy)
    (hc : PKind.cst () ∈ b.binders) :
    instantiateBindersUniversally t b = none := by
  unfold instantiateBindersUniversally
  rw [mkUnivParams_none_of_cst b.binders t hc]

/-- C10 witness: a const binder in front of an arbitrary payload makes the
universal instantiation panic. -/
theorem instantiateBindersUniversally_const_panics_witness :
    PKind.cst () ∈ [PKind.cst ()] ∧
      instantiateBindersUniversally ⟨0⟩ ⟨[PKind.cst ()], .var 0⟩ = none :=
  ⟨by decide,
    instantiateBindersUniversally_const_panics ⟨0⟩ ⟨[PKind.cst ()], .var 0⟩
      (by decide)⟩

/-! ## Goals, clauses and X-clauses
(`src/solve/slg/implementation/resolvent.rs`)

The goal language and the X-clause record are modelled from the spec
(section 3); the resolvent operations themselves are embedded from the
source, with the inference table's unification and instantiation passed as
parameters. -/

/-- Modelled from the spec: an environment is an immutable list of clauses
shared by reference; only its identity matters here. -/
structure Env where
  id : Nat
deriving DecidableEq

/-- Modelled from the spec: a lifetime-equality constraint `LifetimeEq(a, b)`. -/
structure Constraint where
  a : Lifetime
  b : Lifetime
deriving DecidableEq

/-- Modelled from the spec: a domain goal — an opaque head (`Implemented`,
`Normalize`, …, identified by a number) applied to parameters. -/
structure DomainGoal where
  id : Nat
  parameters : Params

/-- Modelled from the spec: a leaf goal is an equality goal or a domain
goal. -/
inductive LeafGoal where
  | eqGoal (x y : Param)
  | domain (d : DomainGoal)

mutual
/-- Modelled from the spec: the goal language. -/
inductive Goal where
  | quantified (qk : Nat) (binders : List (PKind Unit)) (body : Goal)
  | implies (clauses : List ProgramClause) (body : Goal)
  | and (x y : Goal)
  | not (g : Goal)
  | leaf (lg : LeafGoal)
  | cannotProve

/-- Modelled from the spec: a program clause
`Binders<{consequence, conditions}>` (the binder list and the implication
are flattened into one constructor). -/
inductive ProgramClause where
  | mk (binders : List (PKind Unit)) (consequence : DomainGoal)
      (conditions : List Goal)
end

/-- The instantiated implication of a program clause (the result of
`instantiate_binders_existentially(&clause.implication)`). -/
structure PCImplication where
  consequence : DomainGoal
  conditions : List Goal

/-- Modelled from the spec: `InEnvironment` pairs a value with the
environment it lives in. -/
structure InEnvironment (α : Type) where
  environment : Env
  goal : α

/-- Modelled from the spec: a literal of an X-clause. -/
inductive Literal where
  | positive (g : InEnvironment Goal)
  | negative (g : InEnvironment Goal)

/-- Modelled from the spec: the EWFS X-clause record (delayed literals are
opaque). -/
structure ExClause where
  subst : List Param
  delayedLiterals : List Nat
  constraints : List Constraint
  subgoals : List Literal

/-- Modelled from the spec: the result of a unification — extra subgoals
(from deferred projection equalities) and lifetime constraints. -/
structure UnificationResult where
  goals : List (InEnvironment Goal)
  constraints : List Constraint

/-- Modelled from the spec: `UnificationResult::into_ex_clause` folds the
unification's subgoals (as positive literals) and constraints into an
X-clause. -/
def UnificationResult.intoExClause (ur : UnificationResult) (ex : ExClause) :
    ExClause :=
  { ex with
    subgoals := ex.subgoals ++ ur.goals.map Literal.positive,
    constraints := ex.constraints ++ ur.constraints }

/-- `SlgContext::resolvent_clause` from
`src/solve/slg/implementation/resolvent.rs`: instantiate the clause
existentially, unify the goal with its consequence, then build the X-clause
from the input substitution, the unification result, and one literal per
clause condition. The table's instantiation and unification are passed as
functions. -/
def resolventClause
    (instantiateClause : ProgramClause → PCImplication)
    (unify : Env → DomainGoal → DomainGoal → Option UnificationResult)
    (environment : Env) (goal : DomainGoal) (subst : List Param)
    (clause : ProgramClause) : Option ExClause :=
  let impl := instantiateClause clause
  match unify environment goal impl.consequence with
  | none => none
  | some ur =>
    let ex1 := ur.intoExClause ⟨subst, [], [], []⟩
    some { ex1 with
      subgoals := ex1.subgoals ++ impl.conditions.map (fun c =>
        match c with
        | .not c2 => Literal.negative ⟨environment, c2⟩
        | c2 => Literal.positive ⟨environment, c2⟩) }

/-- C1: a successful `resolvent_clause` returns an X-clause whose subst is
the input subst, whose delayed literals are empty, whose constraints are
exactly the unification's constraints, and whose subgoals are the
unification's subgoals followed by one literal per clause condition —
negative for `Not(c)` conditions, positive otherwise. -/
theorem resolventClause_spec
    (instantiateClause : ProgramClause → PCImplication)
    (unify : Env → DomainGoal → DomainGoal → Option UnificationResult)
    (environment : Env) (goal : DomainGoal) (subst : List Param)
    (clause : ProgramClause) (ex : ExClause)
    (h : resolventClause instantiateClause unify environment goal subst clause
      = some ex) :
    ∃ ur, unify environment goal (instantiateClause clause).consequence = some ur ∧
      ex.subst = subst ∧ ex.delayedLiterals = [] ∧
      ex.constraints = ur.constraints ∧
      ex.subgoals = ur.goals.map Literal.positive ++
        (instantiateClause clause).conditions.map (fun c =>
          match c with
          | .not c2 => Literal.negative ⟨environment, c2⟩
          | c2 => Literal.positive ⟨environment, c2⟩) := by
  simp only [resolventClause] at h
  cases hu : unify environment goal (instantiateClause clause).consequence with
  | none => rw [hu] at h; cases h
  | some ur =>
    rw [hu] at h
    refine ⟨ur, rfl, ?_⟩
    cases h
    simp [UnificationResult.intoExClause]

/-- Concrete program clause used by the C1 witness: two conditions, the
first negated. -/
def clauseC1 : ProgramClause :=
  .mk [] ⟨3, .nil⟩ [.not (.leaf (.domain ⟨4, .nil⟩)), .leaf (.domain ⟨5, .nil⟩)]

/-- The identity-shaped instantiation oracle of the C1 witness. -/
def instC1 : ProgramClause → PCImplication
  | .mk _ con cond => ⟨con, cond⟩

/-- The unification oracle of the C1 witness: one extra subgoal, one
lifetime constraint. -/
def unifyC1 : Env → DomainGoal → DomainGoal → Option UnificationResult :=
  fun _ _ _ => some ⟨[⟨⟨0⟩, .cannotProve⟩], [⟨.foralll 1, .var 0⟩]⟩

/-- C1 witness: the resolvent-shape theorem applied at a concrete goal,
substitution and clause, together with the fully evaluated result. -/
theorem resolventClause_spec_witness :
    resolventClause instC1 unifyC1 ⟨0⟩ ⟨3, .nil⟩ [Param.ty (.var 2)] clauseC1
      = some ⟨[Param.ty (.var 2)], [],
          [⟨.foralll 1, .var 0⟩],
          [Literal.positive ⟨⟨0⟩, .cannotProve⟩,
            Literal.negative ⟨⟨0⟩, .leaf (.domain ⟨4, .nil⟩)⟩,
            Literal.positive ⟨⟨0⟩, .leaf (.domain ⟨5, .nil⟩)⟩]⟩ ∧
      ∃ ur ex,
        resolventClause instC1 unifyC1 ⟨0⟩ ⟨3, .nil⟩ [Param.ty (.var 2)] clauseC1
            = some ex ∧
          unifyC1 ⟨0⟩ ⟨3, .nil⟩ (instC1 clauseC1).consequence = some ur ∧
          ex.subst = [Param.ty (.var 2)] ∧ ex.delayedLiterals = [] ∧
          ex.constraints = ur.constraints := by
  refine ⟨rfl, ?_⟩
  obtain ⟨ur, h1, h2, h3, h4, _⟩ :=
    resolventClause_spec instC1 unifyC1 ⟨0⟩ ⟨3, .nil⟩ [Param.ty (.var 2)]
      clauseC1 _ rfl
  exact ⟨ur, _, rfl, h1, h2, h3, h4⟩

/-! ## The answer substitutor (`apply_answer_subst`) -/

/-- The mutable state of `AnswerSubstitutor`: environment, instantiated
answer substitution, the two running binder counters, and the X-clause
being extended. -/
structure AnswerState where
  environment : Env
  answerSubst : List Param
  answerBinders : Nat
  pendingBinders : Nat
  exClause : ExClause

/-- The inference-table operations used during zipping, passed as
functions: `normalize_shallow` per kind (given the pending binder count)
and `unify`. -/
structure TableOracle where
  normTy : Nat → Ty → Option Ty
  normLife : Nat → Lifetime → Option Lifetime
  normConst : Nat → Const → Option Const
  unify : Env → Param → Param → Option UnificationResult

/-- Wrapping subtraction of 64-bit `usize` values (release-build semantics
of `a - b`). -/
def wrapSub64 (a b : Nat) : Nat := (a + (2 ^ 64 - b % 2 ^ 64)) % 2 ^ 64

/-- `AnswerSubstitutor::assert_matching_vars` exactly as the source writes
it: the first assert checks `answer_depth < answer_binders`; the second
assert checks `pending_depth < answer_binders` (sic — against the *answer*
binder count, resolvent.rs line 299); the final `assert_eq!` compares the
two `usize` differences, whose subtractions wrap.  A failed assert is
`none`. -/
def assertMatchingVars (st : AnswerState) (answerDepth pendingDepth : Nat) :
    Option Unit :=
  if answerDepth < st.answerBinders then
    if pendingDepth < st.answerBinders then
      if wrapSub64 answerDepth st.answerBinders
          = wrapSub64 pendingDepth st.pendingBinders
      then some () else none
    else none
  else none

/-- Modelled from the spec: the intended check of `assert_matching_vars` —
both depths bound below their *respective* binder counts and the relative
positions `answer_depth - answer_binders` and
`pending_depth - pending_binders` (read over the integers) equal. -/
def assertMatchingVarsSpec (st : AnswerState) (answerDepth pendingDepth : Nat) :
    Option Unit :=
  if answerDepth < st.answerBinders then
    if pendingDepth < st.pendingBinders then
      if (answerDepth : Int) - st.answerBinders
          = (pendingDepth : Int) - st.pendingBinders
      then some () else none
    else none
  else none

/-- The state of the C3 counterexample: one answer binder, two pending
binders, empty X-clause. -/
def stC3 : AnswerState := ⟨⟨0⟩, [], 1, 2, ⟨[], [], [], []⟩⟩

/-- C3 (code bug): with `answer_binders = 1`, `pending_binders = 2`,
`answer_depth = 0`, `pending_depth = 1` — both variables bound relative to
their own sides, with equal relative positions — the source's
`assert_matching_vars` panics, because its second assert compares
`pending_depth` against `answer_binders`; the intended check stated by the
spec succeeds. -/
theorem assertMatchingVars_bug :
    assertMatchingVars stC3 0 1 = none ∧
      assertMatchingVarsSpec stC3 0 1 = some () ∧
      0 < stC3.answerBinders ∧ 1 < stC3.pendingBinders :=
  ⟨rfl, rfl, by decide, by decide⟩

/-- `AnswerSubstitutor::unify_free_answer_var`: a variable bound in the
answer is reported back (`false`); a free one indexes the answer
substitution (out of bounds is a panic, `none`), down-shifts the pending
side across the pending binders (a panic when that fails), unifies, and
folds the result into the X-clause. -/
def unifyFreeAnswerVar (o : TableOracle) (st : AnswerState)
    (answerDepth : Nat) (pending : Param) : Option (Bool × AnswerState) :=
  if answerDepth < st.answerBinders then some (false, st)
  else
    match st.answerSubst.get? (answerDepth - st.answerBinders) with
    | none => none
    | some answerParam =>
      match Param.downShift st.pendingBinders pending with
      | none => none
      | some pendingShifted =>
        match o.unify st.environment answerParam pendingShifted with
        | none => none
        | some ur =>
          some (true, { st with exClause := ur.intoExClause st.exClause })

/-! ### The zipper

`AnswerSubstitutor` zips the answer-table goal against the selected goal.
`zip_tys`, `zip_lifetimes`, `zip_consts` and `zip_binders` are embedded from
the source; the structural `Zip` instances for goals, clauses, parameters
and environments are modelled from the spec (structural match, constructor
mismatch is a panic).  The embedding is fuel-indexed because shallow
normalization may rewrite the pending side before re-zipping. -/

/-- `zip_lifetimes` from the source. -/
def zipLifetime (o : TableOracle) :
    Nat → AnswerState → Lifetime → Lifetime → Option AnswerState
  | 0, _, _, _ => none
  | fuel + 1, st, answer, pending =>
    match o.normLife st.pendingBinders pending with
    | some pending2 => zipLifetime o fuel st answer pending2
    | none =>
      match answer, pending with
      | .var ad, pend =>
        (match unifyFreeAnswerVar o st ad (.life pend) with
         | none => none
         | some (true, st1) => some st1
         | some (false, st1) =>
           match pend with
           | .var pd =>
             (match assertMatchingVars st1 ad pd with
              | some _ => some st1
              | none => none)
           | _ => none)
      | .foralll au, .foralll pu => if au = pu then some st else none
      | _, _ => none

/-- `zip_consts` from the source. -/
def zipConst (o : TableOracle) :
    Nat → AnswerState → Const → Const → Option AnswerState
  | 0, _, _, _ => none
  | fuel + 1, st, answer, pending =>
    match o.normConst st.pendingBinders pending with
    | some pending2 => zipConst o fuel st answer pending2
    | none =>
      match answer, pending with
      | .var ad, .var pd =>
        match unifyFreeAnswerVar o st ad (.cst (.var pd)) with
        | none => none
        | some (true, st1) => some st1
        | some (false, st1) =>
          match assertMatchingVars st1 ad pd with
          | some _ => some st1
          | none => none

mutual
/-- `zip_tys` from the source: shallow-normalize the pending side and
re-zip; try `unify_free_answer_var` when the answer side is a variable;
otherwise the two sides must match structurally, entering binders with both
counters incremented (and restored afterwards). -/
def zipTy (o : TableOracle) :
    Nat → AnswerState → Ty → Ty → Option AnswerState
  | 0, _, _, _ => none
  | fuel + 1, st, answer, pending =>
    match o.normTy st.pendingBinders pending with
    | some pending2 => zipTy o fuel st answer pending2
    | none =>
      match answer, pending with
      | .var ad, pend =>
        (match unifyFreeAnswerVar o st ad (.ty pend) with
         | none => none
         | some (true, st1) => some st1
         | some (false, st1) =>
           match pend with
           | .var pd =>
             (match assertMatchingVars st1 ad pd with
              | some _ => some st1
              | none => none)
           | _ => none)
      | .apply an aps, .apply pn pps =>
        if an = pn then zipParamsList o fuel st aps pps else none
      | .proj ai aps, .proj pj pps =>
        if ai = pj then zipParamsList o fuel st aps pps else none
      | .unselProj ai aps, .unselProj pj pps =>
        if ai = pj then zipParamsList o fuel st aps pps else none
      | .forAllTy an abody, .forAllTy pn pbody =>
        (match zipTy o fuel
            { st with answerBinders := st.answerBinders + an,
                      pendingBinders := st.pendingBinders + pn }
            abody pbody with
         | none => none
         | some st2 =>
           some { st2 with answerBinders := st2.answerBinders - an,
                           pendingBinders := st2.pendingBinders - pn })
      | _, _ => none

/-- `Zip` on a parameter: the kinds must match. -/
def zipParamKind (o : TableOracle) :
    Nat → AnswerState → Param → Param → Option AnswerState
  | 0, _, _, _ => none
  | fuel + 1, st, x, p =>
    match x, p with
    | .ty t1, .ty t2 => zipTy o fuel st t1 t2
    | .life l1, .life l2 => zipLifetime o fuel st l1 l2
    | .cst c1, .cst c2 => zipConst o fuel st c1 c2
    | _, _ => none

/-- `Zip` on a parameter list: elementwise, equal lengths required. -/
def zipParamsList (o : TableOracle) :
    Nat → AnswerState → Params → Params → Option AnswerState
  | 0, _, _, _ => none
  | fuel + 1, st, xs, ps =>
    match xs, ps with
    | .nil, .nil => some st
    | .cons x xs2, .cons p ps2 =>
      (match zipParamKind o fuel st x p with
       | none => none
       | some st1 => zipParamsList o fuel st1 xs2 ps2)
    | _, _ => none
end

/-- `Zip` on a domain goal: heads must agree, parameters are zipped. -/
def zipDomainGoal (o : TableOracle) :
    Nat → AnswerState → DomainGoal → DomainGoal → Option AnswerState
  | 0, _, _, _ => none
  | fuel + 1, st, x, p =>
    if x.id = p.id then zipParamsList o fuel st x.parameters p.parameters
    else none

/-- `Zip` on a leaf goal. -/
def zipLeafGoal (o : TableOracle) :
    Nat → AnswerState → LeafGoal → LeafGoal → Option AnswerState
  | 0, _, _, _ => none
  | fuel + 1, st, x, p =>
    match x, p with
    | .eqGoal x1 y1, .eqGoal x2 y2 =>
      (match zipParamKind o fuel st x1 x2 with
       | none => none
       | some st1 => zipParamKind o fuel st1 y1 y2)
    | .domain d1, .domain d2 => zipDomainGoal o fuel st d1 d2
    | _, _ => none

mutual
/-- `Zip` on a goal: structural; `zip_binders` increments both counters by
the respective binder counts around the body and restores them after. -/
def zipGoal (o : TableOracle) :
    Nat → AnswerState → Goal → Goal → Option AnswerState
  | 0, _, _, _ => none
  | fuel + 1, st, x, p =>
    match x, p with
    | .quantified qk1 b1 g1, .quantified qk2 b2 g2 =>
      if qk1 = qk2 then
        (match zipGoal o fuel
            { st with answerBinders := st.answerBinders + b1.length,
                      pendingBinders := st.pendingBinders + b2.length }
            g1 g2 with
         | none => none
         | some st2 =>
           some { st2 with answerBinders := st2.answerBinders - b1.length,
                           pendingBinders := st2.pendingBinders - b2.length })
      else none
    | .implies c1 g1, .implies c2 g2 =>
      (match zipClauseList o fuel st c1 c2 with
       | none => none
       | some st1 => zipGoal o fuel st1 g1 g2)
    | .and x1 y1, .and x2 y2 =>
      (match zipGoal o fuel st x1 x2 with
       | none => none
       | some st1 => zipGoal o fuel st1 y1 y2)
    | .not g1, .not g2 => zipGoal o fuel st g1 g2
    | .leaf l1, .leaf l2 => zipLeafGoal o fuel st l1 l2
    | .cannotProve, .cannotProve => some st
    | _, _ => none

/-- `Zip` on a program clause (a `Binders` value: both counters are
incremented around the implication and restored after). -/
def zipClause (o : TableOracle) :
    Nat → AnswerState → ProgramClause → ProgramClause → Option AnswerState
  | 0, _, _, _ => none
  | fuel + 1, st, c1, c2 =>
    match c1, c2 with
    | .mk b1 con1 cond1, .mk b2 con2 cond2 =>
      (match zipDomainGoal o fuel
          { st with answerBinders := st.answerBinders + b1.length,
                    pendingBinders := st.pendingBinders + b2.length }
          con1 con2 with
       | none => none
       | some st2 =>
         match zipGoalList o fuel st2 cond1 cond2 with
         | none => none
         | some st3 =>
           some { st3 with answerBinders := st3.answerBinders - b1.length,
                           pendingBinders := st3.pendingBinders - b2.length })

/-- `Zip` on a goal list. -/
def zipGoalList (o : TableOracle) :
    Nat → AnswerState → List Goal → List Goal → Option AnswerState
  | 0, _, _, _ => none
  | fuel + 1, st, gs1, gs2 =>
    match gs1, gs2 with
    | [], [] => some st
    | g1 :: gt1, g2 :: gt2 =>
      (match zipGoal o fuel st g1 g2 with
       | none => none
       | some st1 => zipGoalList o fuel st1 gt1 gt2)
    | _, _ => none

/-- `Zip` on a clause list. -/
def zipClauseList (o : TableOracle) :
    Nat → AnswerState → List ProgramClause → List ProgramClause →
      Option AnswerState
  | 0, _, _, _ => none
  | fuel + 1, st, cs1, cs2 =>
    match cs1, cs2 with
    | [], [] => some st
    | c1 :: ct1, c2 :: ct2 =>
      (match zipClause o fuel st c1 c2 with
       | none => none
       | some st1 => zipClauseList o fuel st1 ct1 ct2)
    | _, _ => none
end

/-- `Zip` on `InEnvironment<Goal>`: the environments must coincide. -/
def zipInEnvGoal (o : TableOracle) :
    Nat → AnswerState → InEnvironment Goal → InEnvironment Goal →
      Option AnswerState
  | 0, _, _, _ => none
  | fuel + 1, st, x, p =>
    if x.environment = p.environment then zipGoal o fuel st x.goal p.goal
    else none

/-- `AnswerSubstitutor::substitute`: run the zipper from zero binder
counters and return the accumulated X-clause. -/
def answerSubstitute (o : TableOracle) (fuel : Nat) (environment : Env)
    (answerSubst : List Param) (exClause : ExClause)
    (answer pending : InEnvironment Goal) : Option ExClause :=
  match zipInEnvGoal o fuel ⟨environment, answerSubst, 0, 0, exClause⟩
      answer pending with
  | none => none
  | some st => some st.exClause

/-- Modelled from the spec: a `ConstrainedSubst` — a substitution plus
lifetime constraints. -/
structure ConstrainedSubst where
  subst : List Param
  constraints : List Constraint

/-- `SlgContext::apply_answer_subst` from the source: instantiate the
canonical answer (instantiation passed as a function), zip the answer-table
goal against the selected goal in the selected goal's environment, then
append the answer's constraints. -/
def applyAnswerSubst (o : TableOracle) (fuel : Nat)
    (instantiateCanonical : Canonical ConstrainedSubst → ConstrainedSubst)
    (exClause : ExClause) (selectedGoal : InEnvironment Goal)
    (answerTableGoal : Canonical (InEnvironment Goal))
    (canonicalAnswerSubst : Canonical ConstrainedSubst) : Option ExClause :=
  let cs := instantiateCanonical canonicalAnswerSubst
  match answerSubstitute o fuel selectedGoal.environment cs.subst exClause
      answerTableGoal.value selectedGoal with
  | none => none
  | some ex1 => some { ex1 with constraints := ex1.constraints ++ cs.constraints }

/-! ### The frame property of `apply_answer_subst` -/

/-- `e2` extends `e`: same substitution and delayed literals, constraints
and subgoals only appended. -/
def ExClause.Extends (e e2 : ExClause) : Prop :=
  e2.subst = e.subst ∧ e2.delayedLiterals = e.delayedLiterals ∧
  (∃ cs, e2.constraints = e.constraints ++ cs) ∧
  (∃ gs, e2.subgoals = e.subgoals ++ gs)

theorem extends_refl (e : ExClause) : e.Extends e :=
  ⟨rfl, rfl, ⟨[], by simp⟩, ⟨[], by simp⟩⟩

theorem extends_trans {e1 e2 e3 : ExClause}
    (h1 : e1.Extends e2) (h2 : e2.Extends e3) : e1.Extends e3 := by
  obtain ⟨ha1, hb1, ⟨cs1, hc1⟩, ⟨gs1, hd1⟩⟩ := h1
  obtain ⟨ha2, hb2, ⟨cs2, hc2⟩, ⟨gs2, hd2⟩⟩ := h2
  exact ⟨ha2.trans ha1, hb2.trans hb1,
    ⟨cs1 ++ cs2, by rw [hc2, hc1, List.append_assoc]⟩,
    ⟨gs1 ++ gs2, by rw [hd2, hd1, List.append_assoc]⟩⟩

theorem intoExClause_extends (ur : UnificationResult) (e : ExClause) :
    e.Extends (ur.intoExClause e) :=
  ⟨rfl, rfl, ⟨ur.constraints, rfl⟩, ⟨ur.goals.map Literal.positive, rfl⟩⟩

theorem unifyFreeAnswerVar_extends (o : TableOracle) (st : AnswerState)
    (ad : Nat) (p : Param) (b : Bool) (st' : AnswerState)
    (h : unifyFreeAnswerVar o st ad p = some (b, st')) :
    st.exClause.Extends st'.exClause := by
  unfold unifyFreeAnswerVar at h
  split at h
  · cases h
    exact extends_refl _
  · split at h
    · cases h
    · split at h
      · cases h
      · split at h
        · cases h
        · cases h
          exact intoExClause_extends _ _

theorem zipLifetime_extends (o : TableOracle) :
    ∀ (fuel : Nat) (st : AnswerState) (x p : Lifetime) (st' : AnswerState),
      zipLifetime o fuel st x p = some st' → st.exClause.Extends st'.exClause := by
  intro fuel
  induction fuel with
  | zero => intro st x p st' h; simp [zipLifetime] at h
  | succ fuel ih =>
    intro st x p st' h
    simp only [zipLifetime] at h
    split at h
    · exact ih _ _ _ _ h
    · split at h
      · split at h
        · cases h
        · cases h
          exact unifyFreeAnswerVar_extends _ _ _ _ _ _ (by assumption)
        · split at h
          · split at h
            · cases h
              exact unifyFreeAnswerVar_extends _ _ _ _ _ _ (by assumption)
            · cases h
          · cases h
      · split at h
        · cases h
          exact extends_refl _
        · cases h
      · cases h

theorem zipConst_extends (o : TableOracle) :
    ∀ (fuel : Nat) (st : AnswerState) (x p : Const) (st' : AnswerState),
      zipConst o fuel st x p = some st' → st.exClause.Extends st'.exClause := by
  intro fuel
  induction fuel with
  | zero => intro st x p st' h; simp [zipConst] at h
  | succ fuel ih =>
    intro st x p st' h
    simp only [zipConst] at h
    split at h
    · exact ih _ _ _ _ h
    · split at h
      · cases h
      · cases h
        exact unifyFreeAnswerVar_extends _ _ _ _ _ _ (by assumption)
      · split at h
        · cases h
          exact unifyFreeAnswerVar_extends _ _ _ _ _ _ (by assumption)
        · cases h

theorem zipTy_bundle_extends (o : TableOracle) :
    ∀ fuel : Nat,
      (∀ st x p st', zipTy o fuel st x p = some st' →
        st.exClause.Extends st'.exClause) ∧
      (∀ st x p st', zipParamKind o fuel st x p = some st' →
        st.exClause.Extends st'.exClause) ∧
      (∀ st x p st', zipParamsList o fuel st x p = some st' →
        st.exClause.Extends st'.exClause) := by
  intro fuel
  induction fuel with
  | zero =>
    refine ⟨?_, ?_, ?_⟩ <;>
      (intro st x p st' h; simp [zipTy, zipParamKind, zipParamsList] at h)
  | succ fuel ih =>
    obtain ⟨ihTy, ihPK, ihPL⟩ := ih
    refine ⟨?_, ?_, ?_⟩
    · intro st x p st' h
      simp only [zipTy] at h
      split at h
      · exact ihTy _ _ _ _ h
      · split at h
        · split at h
          · cases h
          · cases h
            exact unifyFreeAnswerVar_extends _ _ _ _ _ _ (by assumption)
          · split at h
            · split at h
              · cases h
                exact unifyFreeAnswerVar_extends _ _ _ _ _ _ (by assumption)
              · cases h
            · cases h
        · split at h
          · exact ihPL _ _ _ _ h
          · cases h
        · split at h
          · exact ihPL _ _ _ _ h
          · cases h
        · split at h
          · exact ihPL _ _ _ _ h
          · cases h
        · split at h
          · cases h
          · rename_i st2 heq
            cases h
            have hx := ihTy _ _ _ _ heq
            exact hx
        · cases h
    · intro st x p st' h
      simp only [zipParamKind] at h
      split at h
      · exact ihTy _ _ _ _ h
      · exact zipLifetime_extends o _ _ _ _ _ h
      · exact zipConst_extends o _ _ _ _ _ h
      · cases h
    · intro st x p st' h
      simp only [zipParamsList] at h
      split at h
      · cases h
        exact extends_refl _
      · split at h
        · cases h
        · exact extends_trans (ihPK _ _ _ _ (by assumption)) (ihPL _ _ _ _ h)
      · cases h

theorem zipDomainGoal_extends (o : TableOracle) :
    ∀ (fuel : Nat) (st : AnswerState) (x p : DomainGoal) (st' : AnswerState),
      zipDomainGoal o fuel st x p = some st' → st.exClause.Extends st'.exClause := by
  intro fuel st x p st' h
  cases fuel with
  | zero => simp [zipDomainGoal] at h
  | succ fuel =>
    simp only [zipDomainGoal] at h
    split at h
    · exact (zipTy_bundle_extends o fuel).2.2 _ _ _ _ h
    · cases h

theorem zipLeafGoal_extends (o : TableOracle) :
    ∀ (fuel : Nat) (st : AnswerState) (x p : LeafGoal) (st' : AnswerState),
      zipLeafGoal o fuel st x p = some st' → st.exClause.Extends st'.exClause := by
  intro fuel st x p st' h
  cases fuel with
  | zero => simp [zipLeafGoal] at h
  | succ fuel =>
    simp only [zipLeafGoal] at h
    split at h
    · split at h
      · cases h
      · exact extends_trans
          ((zipTy_bundle_extends o fuel).2.1 _ _ _ _ (by assumption))
          ((zipTy_bundle_extends o fuel).2.1 _ _ _ _ h)
    · exact zipDomainGoal_extends o fuel _ _ _ _ h
    · cases h

theorem zipGoal_bundle_extends (o : TableOracle) :
    ∀ fuel : Nat,
      (∀ st x p st', zipGoal o fuel st x p = some st' →
        st.exClause.Extends st'.exClause) ∧
      (∀ st x p st', zipClause o fuel st x p = some st' →
        st.exClause.Extends st'.exClause) ∧
      (∀ st x p st', zipGoalList o fuel st x p = some st' →
        st.exClause.Extends st'.exClause) ∧
      (∀ st x p st', zipClauseList o fuel st x p = some st' →
        st.exClause.Extends st'.exClause) := by
  intro fuel
  induction fuel with
  | zero =>
    refine ⟨?_, ?_, ?_, ?_⟩ <;>
      (intro st x p st' h;
        simp [zipGoal, zipClause, zipGoalList, zipClauseList] at h)
  | succ fuel ih =>
    obtain ⟨ihG, ihC, ihGL, ihCL⟩ := ih
    refine ⟨?_, ?_, ?_, ?_⟩
    · intro st x p st' h
      simp only [zipGoal] at h
      split at h
      · split at h
        · split at h
          · cases h
          · rename_i st2 heq
            cases h
            have hx := ihG _ _ _ _ heq
            exact hx
        · cases h
      · split at h
        · cases h
        · exact extends_trans (ihCL _ _ _ _ (by assumption)) (ihG _ _ _ _ h)
      · split at h
        · cases h
        · exact extends_trans (ihG _ _ _ _ (by assumption)) (ihG _ _ _ _ h)
      · exact ihG _ _ _ _ h
      · exact zipLeafGoal_extends o fuel _ _ _ _ h
      · cases h
        exact extends_refl _
      · cases h
    · intro st x p st' h
      obtain ⟨b1, con1, cond1⟩ := x
      obtain ⟨b2, con2, cond2⟩ := p
      simp only [zipClause] at h
      split at h
      · cases h
      · rename_i st2 heq2
        split at h
        · cases h
        · rename_i st3 heq3
          cases h
          have hx := extends_trans (zipDomainGoal_extends o fuel _ _ _ _ heq2)
            (ihGL _ _ _ _ heq3)
          exact hx
    · intro st x p st' h
      simp only [zipGoalList] at h
      split at h
      · cases h
        exact extends_refl _
      · split at h
        · cases h
        · exact extends_trans (ihG _ _ _ _ (by assumption)) (ihGL _ _ _ _ h)
      · cases h
    · intro st x p st' h
      simp only [zipClauseList] at h
      split at h
      · cases h
        exact extends_refl _
      · split at h
        · cases h
        · exact extends_trans (ihC _ _ _ _ (by assumption)) (ihCL _ _ _ _ h)
      · cases h

theorem zipInEnvGoal_extends (o : TableOracle) (fuel : Nat) (st : AnswerState)
    (x p : InEnvironment Goal) (st' : AnswerState)
    (h : zipInEnvGoal o fuel st x p = some st') :
    st.exClause.Extends st'.exClause := by
  cases fuel with
  | zero => simp [zipInEnvGoal] at h
  | succ fuel =>
    simp only [zipInEnvGoal] at h
    split at h
    · exact (zipGoal_bundle_extends o fuel).1 _ _ _ _ h
    · cases h

/-- C9: a successful `apply_answer_subst` keeps the X-clause's substitution
and delayed literals unchanged and only appends to its constraints and
subgoals (the appended pieces coming from the internal unifications and the
instantiated answer's constraints). -/
theorem applyAnswerSubst_frame (o : TableOracle) (fuel : Nat)
    (instantiateCanonical : Canonical ConstrainedSubst → ConstrainedSubst)
    (exClause : ExClause) (selectedGoal : InEnvironment Goal)
    (answerTableGoal : Canonical (InEnvironment Goal))
    (canonicalAnswerSubst : Canonical ConstrainedSubst) (ex' : ExClause)
    (h : applyAnswerSubst o fuel instantiateCanonical exClause selectedGoal
        answerTableGoal canonicalAnswerSubst = some ex') :
    ex'.subst = exClause.subst ∧
      ex'.delayedLiterals = exClause.delayedLiterals ∧
      (∃ cs, ex'.constraints = exClause.constraints ++ cs) ∧
      (∃ gs, ex'.subgoals = exClause.subgoals ++ gs) := by
  simp only [applyAnswerSubst] at h
  split at h
  · cases h
  · rename_i ex1 heqSub
    cases h
    have h1 : exClause.Extends ex1 := by
      simp only [answerSubstitute] at heqSub
      split at heqSub
      · cases heqSub
      · rename_i stz heqz
        cases heqSub
        exact zipInEnvGoal_extends o fuel _ _ _ _ heqz
    obtain ⟨ha, hb, ⟨cs1, hc⟩, hg⟩ := h1
    exact ⟨ha, hb,
      ⟨cs1 ++ (instantiateCanonical canonicalAnswerSubst).constraints,
        by simp only [hc, List.append_assoc]⟩,
      hg⟩

/-- The oracle of the C9 witness: nothing normalizes, unification never
succeeds (and is never reached). -/
def oracleC9 : TableOracle :=
  ⟨fun _ _ => none, fun _ _ => none, fun _ _ => none, fun _ _ _ => none⟩

/-- The pending X-clause of the C9 witness. -/
def exC9 : ExClause :=
  ⟨[Param.ty (.var 0)], [7], [], [Literal.positive ⟨⟨0⟩, .cannotProve⟩]⟩

/-- The canonical answer of the C9 witness: empty substitution, one
lifetime constraint. -/
def casC9 : Canonical ConstrainedSubst := ⟨⟨[], [⟨.var 0, .var 1⟩]⟩, []⟩

/-- C9 witness: the frame property via the theorem at a concrete call that
returns `Ok`, appending exactly the answer's constraint. -/
theorem applyAnswerSubst_frame_witness :
    ∃ ex', applyAnswerSubst oracleC9 2 (fun c => c.value) exC9
        ⟨⟨0⟩, .cannotProve⟩ ⟨⟨⟨0⟩, .cannotProve⟩, []⟩ casC9 = some ex' ∧
      ex'.subst = exC9.subst ∧
      ex'.delayedLiterals = exC9.delayedLiterals ∧
      (∃ cs, ex'.constraints = exC9.constraints ++ cs) ∧
      (∃ gs, ex'.subgoals = exC9.subgoals ++ gs) :=
  ⟨_, rfl,
    applyAnswerSubst_frame oracleC9 2 (fun c => c.value) exC9
      ⟨⟨0⟩, .cannotProve⟩ ⟨⟨⟨0⟩, .cannotProve⟩, []⟩ casC9 _ rfl⟩

end Chalk
